import Mathlib

/-!
Verification development for the quote-analysis service in `main.py`
("Analyse Devis API"). Text is modelled as `List Char`; Python floats are
modelled as exact rationals (`ℚ`); the ASCII fragments of Python's
`str.lower`, `\w`, `\d` and `\s` are used (the documents and keywords the
program works with are French ASCII text plus a few fixed accented
characters, which are handled explicitly where they occur in patterns).
The regular expressions of `main.py` are embedded through a small
backtracking matcher (`Pat.runs`) whose enumeration order coincides with
Python's leftmost/greedy backtracking order for the pattern constructors
used here.
-/

/-- ASCII model of Python's lowercasing (`str.lower`): `A`-`Z` map to
`a`-`z`, every other character is left unchanged. -/
def pyLower (c : Char) : Char :=
  if 65 ≤ c.toNat ∧ c.toNat ≤ 90 then Char.ofNat (c.toNat + 32) else c

/-- ASCII model of the regex class `\w`: letters, digits and underscore. -/
def isWordChar (c : Char) : Bool :=
  (48 ≤ c.toNat && c.toNat ≤ 57) || (65 ≤ c.toNat && c.toNat ≤ 90) ||
  (97 ≤ c.toNat && c.toNat ≤ 122) || c.toNat == 95

/-- ASCII model of the regex class `\s` / `str` whitespace. -/
def isSpaceChar (c : Char) : Bool :=
  c == ' ' || c == '\t' || c == '\n' || c == '\r' || c == '\x0b' || c == '\x0c'

/-- Lowercase a string, character by character (model of `str.lower`). -/
def lowerStr (l : List Char) : List Char := l.map pyLower

/-- Embedding of `_digits`: drop every non-digit character (`DIGITS.sub("", s)`). -/
def digitsOf (l : List Char) : List Char := l.filter Char.isDigit

/-- Matcher state: current position and the spans captured by the first
and second groups of the pattern. -/
structure MSt where
  pos : Nat
  g1 : Option (Nat × Nat)
  g2 : Option (Nat × Nat)
  deriving DecidableEq, Repr

/-- Pattern syntax covering the constructs used by `main.py`'s regexes:
character classes, sequencing, alternation (left first), greedy option,
word boundary `\b`, single-character negative lookbehind `(?<!…)`, and two
capture groups. Counted repetition is expanded into nested options
(`repUpToP`, `lazyUpToP` below); the unbounded `*`/`+` of the source
regexes are instantiated with a repetition count at least the length of
the subject text, which is equivalent since every repeated body consumes
at least one character. -/
inductive Pat where
  | cls (p : Char → Bool)
  | eps
  | seq (a b : Pat)
  | alt (a b : Pat)
  | opt (a : Pat)
  | wb
  | nlb (p : Char → Bool)
  | grp1 (a : Pat)
  | grp2 (a : Pat)

/-- Is position `i` of `t` occupied by a word character? Out-of-range
positions count as non-word, as in Python's `\b`. -/
def isWordAt (t : List Char) (i : Nat) : Bool :=
  match t.get? i with
  | some c => isWordChar c
  | none => false

/-- Python's `\b`: the word-ness of the two sides of position `i` differ. -/
def atBoundary (t : List Char) (i : Nat) : Bool :=
  (if i = 0 then false else isWordAt t (i - 1)) != isWordAt t i

/-- The character just before position `i`, if any. -/
def prevChar (t : List Char) (i : Nat) : Option Char :=
  if i = 0 then none else t.get? (i - 1)

/-- All end states of matching pattern `p` against `t` from state `st`,
enumerated in Python's backtracking order (leftmost alternative first,
greedy repetition longest first, lazy repetition shortest first). -/
def Pat.runs (t : List Char) : Pat → MSt → List MSt
  | .cls p, st =>
    match t.get? st.pos with
    | some c => if p c then [{ st with pos := st.pos + 1 }] else []
    | none => []
  | .eps, st => [st]
  | .seq a b, st => (Pat.runs t a st).flatMap (fun st2 => Pat.runs t b st2)
  | .alt a b, st => Pat.runs t a st ++ Pat.runs t b st
  | .opt a, st => Pat.runs t a st ++ [st]
  | .wb, st => if atBoundary t st.pos then [st] else []
  | .nlb p, st =>
    match prevChar t st.pos with
    | some c => if p c then [] else [st]
    | none => [st]
  | .grp1 a, st =>
    (Pat.runs t a st).map (fun e => { e with g1 := some (st.pos, e.pos) })
  | .grp2 a, st =>
    (Pat.runs t a st).map (fun e => { e with g2 := some (st.pos, e.pos) })

/-- Try the pattern at positions `i, i+1, …` (with `fuel` positions left);
the first position with a match wins, and within a position the first
end state of the backtracking enumeration wins — Python's `re.search`. -/
def searchAux (t : List Char) (p : Pat) : Nat → Nat → Option (Nat × MSt)
  | 0, _ => none
  | fuel + 1, i =>
    match Pat.runs t p ⟨i, none, none⟩ with
    | st :: _ => some (i, st)
    | [] => searchAux t p fuel (i + 1)

/-- Python's `re.search`: leftmost match, as start position plus end state. -/
def pySearch (t : List Char) (p : Pat) : Option (Nat × MSt) :=
  searchAux t p (t.length + 1) 0

/-- Worker for `pyFindIter`: after a match, continue at its end. -/
def finditerAux (t : List Char) (p : Pat) : Nat → Nat → List (Nat × MSt)
  | 0, _ => []
  | fuel + 1, i =>
    match searchAux t p (t.length + 1 - i) i with
    | none => []
    | some (s, st) => (s, st) :: finditerAux t p fuel (max st.pos (s + 1))

/-- Python's `re.finditer`: successive non-overlapping leftmost matches. -/
def pyFindIter (t : List Char) (p : Pat) : List (Nat × MSt) :=
  finditerAux t p (t.length + 1) 0

/-- The slice `t[a:b]` of a character list. -/
def sliceStr (t : List Char) (a b : Nat) : List Char := (t.take b).drop a

/-- Embedding of `m.group(0)`: the full matched substring. -/
def matchStr (t : List Char) (m : Nat × MSt) : List Char := sliceStr t m.1 m.2.pos

/-- Embedding of `m.group(1)`: the substring captured by the first group (empty if the
group did not participate, which does not occur in the patterns used). -/
def group1Of (t : List Char) (m : Nat × MSt) : List Char :=
  match m.2.g1 with
  | some (a, b) => sliceStr t a b
  | none => []

/-- Embedding of `m.group(2)`: the substring captured by the second group. -/
def group2Of (t : List Char) (m : Nat × MSt) : List Char :=
  match m.2.g2 with
  | some (a, b) => sliceStr t a b
  | none => []

/-- Sequence a list of patterns. -/
def pSeq (l : List Pat) : Pat := l.foldr Pat.seq Pat.eps

/-- Embedding of `p{0,c}`, greedy: expanded into nested greedy options, so that the
backtracking enumeration tries the longest repetition first, exactly as
Python does. -/
def repUpToP : Nat → Pat → Pat
  | 0, _ => Pat.eps
  | c + 1, a => Pat.opt (Pat.seq a (repUpToP c a))

/-- Embedding of `p{0,c}?`, lazy: nested `alt` with the empty branch first, so that the
shortest repetition is tried first, exactly as Python does. -/
def lazyUpToP : Nat → Pat → Pat
  | 0, _ => Pat.eps
  | c + 1, a => Pat.alt Pat.eps (Pat.seq a (lazyUpToP c a))

/-- A literal character. -/
def pch (c : Char) : Pat := Pat.cls (fun x => x == c)

/-- A literal character under `re.IGNORECASE` (ASCII folding): the lowered
subject character must equal the (lowercase) target. -/
def pci (c : Char) : Pat := Pat.cls (fun x => pyLower x == c)

/-- A case-sensitive literal string. -/
def pstr (s : String) : Pat := pSeq (s.data.map pch)

/-- A case-insensitive literal string (target given in lowercase). -/
def pcistr (s : String) : Pat := pSeq (s.data.map pci)

/-- The regex class `\d` (ASCII model). -/
def pdig : Pat := Pat.cls Char.isDigit

/-- The regex class `\s` (ASCII model). -/
def pws : Pat := Pat.cls isSpaceChar

/-- Embedding of `p{n}`: exactly `n` copies. -/
def repExact (n : Nat) (p : Pat) : Pat := pSeq (List.replicate n p)

/-- Embedding of `p+` capped at `n + 1` copies (used with `n` at least the text length,
where the cap is unreachable). -/
def rep1Plus (n : Nat) (p : Pat) : Pat := Pat.seq p (repUpToP n p)

/-- Embedding of `p{1,k}`, greedy. -/
def rep1To (k : Nat) (p : Pat) : Pat := Pat.seq p (repUpToP (k - 1) p)

/-- Embedding of `[\s\.-]`, the separator class of `SIRET_RE`/`SIREN_RE`. -/
def sepCls : Pat := Pat.cls (fun c => isSpaceChar c || c == '.' || c == '-')

/-- Embedding of `SIRET_RE = \b(?:\d[\s\.-]?){14}\b`. -/
def siretPat : Pat :=
  pSeq [Pat.wb, repExact 14 (Pat.seq pdig (Pat.opt sepCls)), Pat.wb]

/-- Embedding of `SIREN_RE = \b(?:\d[\s\.-]?){9}\b`. -/
def sirenPat : Pat :=
  pSeq [Pat.wb, repExact 9 (Pat.seq pdig (Pat.opt sepCls)), Pat.wb]

/-- Embedding of `[A-Z]`. -/
def upperCls : Pat := Pat.cls (fun c => 65 ≤ c.toNat && c.toNat ≤ 90)

/-- Embedding of `[0-9A-Z]`. -/
def upDigCls : Pat := Pat.cls (fun c => (65 ≤ c.toNat && c.toNat ≤ 90) || c.isDigit)

/-- Embedding of `IBAN_RE = \b([A-Z]{2}\d{2}[0-9A-Z]{11,30})\b` (case-sensitive). -/
def ibanPat : Pat :=
  pSeq [Pat.wb,
        Pat.grp1 (pSeq [repExact 2 upperCls, repExact 2 pdig,
                        repExact 11 upDigCls, repUpToP 19 upDigCls]),
        Pat.wb]

/-- Embedding of `[.,]`, the decimal-separator class. -/
def decSepCls : Pat := Pat.cls (fun c => c == '.' || c == ',')

/-- Embedding of `[  ]`, the thousands-separator class of `AMOUNT_RE`/`M2_RE`. -/
def spNbCls : Pat := Pat.cls (fun c => c == ' ' || c == '\u00A0')

/-- First alternative of `AMOUNT_RE`'s group:
`\d{1,3}(?:[  ]\d{3})*(?:[.,]\d{2})`. -/
def amountGrpA (n : Nat) : Pat :=
  pSeq [rep1To 3 pdig, repUpToP n (Pat.seq spNbCls (repExact 3 pdig)),
        decSepCls, repExact 2 pdig]

/-- Second alternative of `AMOUNT_RE`'s group: `\d+(?:[.,]\d{2})?`. -/
def amountGrpB (n : Nat) : Pat :=
  Pat.seq (rep1Plus n pdig) (Pat.opt (Pat.seq decSepCls (repExact 2 pdig)))

/-- Third alternative of `AMOUNT_RE`'s group: `\d+`. -/
def amountGrpC (n : Nat) : Pat := rep1Plus n pdig

/-- The currency suffix of `AMOUNT_RE`: `(?:€|eur|euro[s]?)` under `re.I`. -/
def currencyPat : Pat :=
  Pat.alt (pch '€')
    (Pat.alt (pcistr ("eur")) (Pat.seq (pcistr ("euro")) (Pat.opt (pci 's'))))

/-- Embedding of `AMOUNT_RE` (`re.I`):
`(?<!\w)(\d{1,3}(?:[  ]\d{3})*(?:[.,]\d{2})|\d+(?:[.,]\d{2})?|\d+)\s*(?:€|eur|euro[s]?)?`,
with `n` at least the subject length standing in for the unbounded stars. -/
def amountPat (n : Nat) : Pat :=
  pSeq [Pat.nlb isWordChar,
        Pat.grp1 (Pat.alt (amountGrpA n) (Pat.alt (amountGrpB n) (amountGrpC n))),
        repUpToP n pws, Pat.opt currencyPat]

/-- Embedding of `PCT_RE = (\d{1,3}(?:[.,]\d{1,2})?)\s?%`. -/
def pctPat : Pat :=
  pSeq [Pat.grp1 (Pat.seq (rep1To 3 pdig)
                   (Pat.opt (pSeq [decSepCls, pdig, Pat.opt pdig]))),
        Pat.opt pws, pch '%']

/-- Embedding of `[ée]` under `re.I` (ASCII folding plus the literal `é`). -/
def eAcuteCls : Pat := Pat.cls (fun c => pyLower c == 'e' || c == 'é')

/-- Embedding of `[èe]` under `re.I`. -/
def eGraveCls : Pat := Pat.cls (fun c => pyLower c == 'e' || c == 'è')

/-- The unit part of `M2_RE`: `(?:m2|m²|m\^2|metre[s]?\s*carr[ée]s?)` (`re.I`). -/
def m2Unit (n : Nat) : Pat :=
  Pat.alt (pcistr ("m2"))
    (Pat.alt (Pat.seq (pci 'm') (pch '²'))
      (Pat.alt (pcistr ("m^2"))
        (pSeq [pcistr ("metre"), Pat.opt (pci 's'), repUpToP n pws,
               pcistr ("carr"), eAcuteCls, Pat.opt (pci 's')])))

/-- Embedding of `M2_RE` (`re.I`):
`(\d{1,5}(?:[  ]\d{3})?(?:[.,]\d{1,2})?)\s?(?:m2|m²|m\^2|metre[s]?\s*carr[ée]s?)`. -/
def m2Pat (n : Nat) : Pat :=
  pSeq [Pat.grp1 (pSeq [rep1To 5 pdig,
                        Pat.opt (Pat.seq spNbCls (repExact 3 pdig)),
                        Pat.opt (pSeq [decSepCls, pdig, Pat.opt pdig])]),
        Pat.opt pws, m2Unit n]

/-- The keyword part of the timeline regex:
`(?:d[ée]lai[s]?|dur[ée]e|intervention|r[ée]alisation)` (`re.I`). -/
def delaiKw : Pat :=
  Pat.alt (pSeq [pci 'd', eAcuteCls, pcistr ("lai"), Pat.opt (pci 's')])
    (Pat.alt (pSeq [pcistr ("dur"), eAcuteCls, pci 'e'])
      (Pat.alt (pcistr ("intervention"))
        (pSeq [pci 'r', eAcuteCls, pcistr ("alisation")])))

/-- Embedding of `.` without `re.DOTALL`: any character except a newline. -/
def dotCls : Pat := Pat.cls (fun c => c != '\n')

/-- The unit group of the timeline regex: `(jours?|j|semaines?|mois)` (`re.I`). -/
def delaiUnit : Pat :=
  Pat.alt (Pat.seq (pcistr ("jour")) (Pat.opt (pci 's')))
    (Pat.alt (pci 'j')
      (Pat.alt (Pat.seq (pcistr ("semaine")) (Pat.opt (pci 's'))) (pcistr ("mois"))))

/-- The timeline regex of `_find_delai_jours` (`re.I`):
`(?:d[ée]lai[s]?|dur[ée]e|intervention|r[ée]alisation).{0,40}?(\d{1,3})\s?(jours?|j|semaines?|mois)`. -/
def delaiPat : Pat :=
  pSeq [delaiKw, lazyUpToP 40 dotCls, Pat.grp1 (rep1To 3 pdig),
        Pat.opt pws, Pat.grp2 delaiUnit]

/-- The insurance regex of `_find_decennale` (`re.I`):
`d[ée]cennale|assurance\s+d[ée]cennale`. -/
def decennalePat (n : Nat) : Pat :=
  Pat.alt (pSeq [pci 'd', eAcuteCls, pcistr ("cennale")])
    (pSeq [pcistr ("assurance"), rep1Plus n pws, pci 'd', eAcuteCls, pcistr ("cennale")])

/-- Topic word of `_inclusion` for disposal: `d[ée]pose|[ée]vacuation|gravats` (`re.I`). -/
def wDepose : Pat :=
  Pat.alt (pSeq [pci 'd', eAcuteCls, pcistr ("pose")])
    (Pat.alt (pSeq [eAcuteCls, pcistr ("vacuation")]) (pcistr ("gravats")))

/-- Topic word of `_inclusion` for scaffolding: `[ée]chafaudage` (`re.I`). -/
def wEchaf : Pat := pSeq [eAcuteCls, pcistr ("chafaudage")]

/-- Topic word of `_inclusion` for finishing: `finition[s]?` (`re.I`). -/
def wFinit : Pat := Pat.seq (pcistr ("finition")) (Pat.opt (pci 's'))

/-- Topic word of `_inclusion` for after-sales:
`\bSAV\b|service\s+apr[èe]s\s+vente|garantie` (`re.I`). -/
def wSav (n : Nat) : Pat :=
  Pat.alt (pSeq [Pat.wb, pcistr ("sav"), Pat.wb])
    (Pat.alt (pSeq [pcistr ("service"), rep1Plus n pws, pcistr ("apr"), eGraveCls,
                    pci 's', rep1Plus n pws, pcistr ("vente")])
      (pcistr ("garantie")))

/-- The negation marker regex of `_inclusion` (`re.I`):
`(non\s+compris|exclu|hors\s+prix)`. -/
def negMarkPat (n : Nat) : Pat :=
  Pat.alt (pSeq [pcistr ("non"), rep1Plus n pws, pcistr ("compris")])
    (Pat.alt (pcistr ("exclu")) (pSeq [pcistr ("hors"), rep1Plus n pws, pcistr ("prix")]))

/-- The value of a digit string, as a natural number (`int(...)` on the
all-digit group captures). -/
def natOfDigits (l : List Char) : Nat :=
  l.foldl (fun a c => 10 * a + (c.toNat - 48)) 0

/-- Model of Python's `float(s)` on the strings `_fr2float` can produce
after cleanup (only digits, `,` and `.` remain): parsing succeeds exactly
when the string is non-empty, contains no comma, has at most one dot and
at least one digit; the value is the decimal reading
`intpart.fracpart = (intpart·10^k + fracpart) / 10^k` with `k` the number
of fractional digits (built with `mkRat` so that it computes by kernel
reduction). -/
def pyFloat (s : List Char) : Option ℚ :=
  if s = [] then none
  else if s.any (fun c => !(c.isDigit || c == '.')) then none
  else if 1 < s.count '.' then none
  else if !(s.any Char.isDigit) then none
  else
    let ip := s.takeWhile (fun c => c != '.')
    let fp := (s.dropWhile (fun c => c != '.')).drop 1
    some (mkRat (natOfDigits ip * 10 ^ fp.length + natOfDigits fp) (10 ^ fp.length))

/-- The cleanup phase of `_fr2float`: non-breaking spaces become spaces,
spaces are removed, every character other than digits, commas and dots is
removed, then: if there is more than one comma and a dot, all commas are
dropped; else if there is exactly one comma and no dot, it becomes a dot. -/
def fr2clean (s : List Char) : List Char :=
  let s1 := (s.map (fun c => if c = ' ' then ' ' else c)).filter
      (fun c => c ≠ ' ')
  let s2 := s1.filter (fun c => c.isDigit || c == ',' || c == '.')
  if 1 < s2.count ',' ∧ '.' ∈ s2 then s2.filter (fun c => c ≠ ',')
  else if s2.count ',' = 1 ∧ '.' ∉ s2 then
    s2.map (fun c => if c = ',' then '.' else c)
  else s2

/-- Embedding of `_fr2float`: `None` for a falsy input, otherwise cleanup followed by
`float(...)`, with a failed parse degrading to `None`. -/
def fr2float (s : List Char) : Option ℚ :=
  if s = [] then none else pyFloat (fr2clean s)

/-- Python's `str.splitlines` restricted to `\n` separators: no trailing
empty line for a trailing newline, and `[]` for the empty string. -/
def pySplitlines : List Char → List (List Char)
  | [] => []
  | c :: cs =>
    if c = '\n' then [] :: pySplitlines cs
    else
      match pySplitlines cs with
      | [] => [[c]]
      | l :: ls => (c :: l) :: ls

/-- Python's `str.strip()` (ASCII whitespace model). -/
def pyStrip (l : List Char) : List Char :=
  ((l.dropWhile isSpaceChar).reverse.dropWhile isSpaceChar).reverse

/-- Embedding of `_line_iter`: the stripped lines of the text. -/
def linesOf (t : List Char) : List (List Char) :=
  (pySplitlines t).map pyStrip

/-- Embedding of `ExtractedIdentifiers`: the result record of `extract_ids`. -/
structure ExtractedIds where
  siret : Option (List Char)
  siren : Option (List Char)
  deriving DecidableEq, Repr

/-- Python truthiness of an optional string: `None` and `""` are falsy. -/
def pyTruthyStr : Option (List Char) → Bool
  | none => false
  | some s => !s.isEmpty

/-- Embedding of `extract_ids`: search for `SIRET_RE`; when it matches, `siret` is the
first 14 digit characters of the match and `siren` its first 9 characters.
When `siren` is still falsy after that, search independently for
`SIREN_RE` and take the first 9 digits of that match. -/
def extractIds (t : List Char) : ExtractedIds :=
  let siret := (pySearch t siretPat).map
      (fun m => (digitsOf (matchStr t m)).take 14)
  let siren := siret.map (fun s => s.take 9)
  if pyTruthyStr siren then { siret := siret, siren := siren }
  else
    match pySearch t sirenPat with
    | some m => { siret := siret, siren := some ((digitsOf (matchStr t m)).take 9) }
    | none => { siret := siret, siren := siren }

/-- Python's substring test `k in s`. -/
def isSubstr (k : List Char) : List Char → Bool
  | [] => k.isEmpty
  | c :: rest => k.isPrefixOf (c :: rest) || isSubstr k rest

/-- The keyword test of `_find_amount_near`/`_find_pct_near`: some keyword
is a substring of the lowercased line (`k in ln.lower()`). -/
def kwHit (kws : List (List Char)) (ln : List Char) : Bool :=
  kws.any (fun k => isSubstr k (lowerStr ln))

/-- Modelled from the spec: the keyword test as §4.2 words it
("contains any keyword (case-insensitive)"), i.e. with the keyword itself
lowercased as well. It coincides with `kwHit` when the keyword is already
lowercase. -/
def ciKwHit (kws : List (List Char)) (ln : List Char) : Bool :=
  kws.any (fun k => isSubstr (lowerStr k) (lowerStr ln))

/-- The values `_find_amount_near` collects, parameterised by the keyword
test: for every line hit by a keyword, all `AMOUNT_RE` group captures of
that line concatenated with a space and the following line (or `""` at the
last line), parsed by `_fr2float`, failed parses skipped. -/
def amountValsWith (hit : List (List Char) → List Char → Bool)
    (t : List Char) (kws : List (List Char)) : List ℚ :=
  let lines := linesOf t
  (List.range lines.length).flatMap (fun i =>
    let ln := lines.getD i []
    if hit kws ln then
      let scope := ln ++ ' ' :: lines.getD (i + 1) []
      (pyFindIter scope (amountPat scope.length)).filterMap
        (fun m => fr2float (group1Of scope m))
    else [])

/-- Embedding of `_find_amount_near`: the maximum collected value, `None` when none. -/
def findAmountNear (t : List Char) (kws : List (List Char)) : Option ℚ :=
  (amountValsWith kwHit t kws).max?

/-- Modelled from the spec: `_find_amount_near` with the case-insensitive
keyword test of §4.2, for comparison with the code's `findAmountNear`. -/
def specFindAmountNear (t : List Char) (kws : List (List Char)) : Option ℚ :=
  (amountValsWith ciKwHit t kws).max?

/-- The loop shared by `_find_pct_near` and `_find_acompte_pct`: scan the
stripped lines; on the first keyword line where `PCT_RE` matches, return
the parse of its group (even if that parse fails); keyword lines without a
percentage token are skipped. -/
def findPctGo (kws : List (List Char)) : List (List Char) → Option ℚ
  | [] => none
  | ln :: rest =>
    if kwHit kws ln then
      match pySearch ln pctPat with
      | some m => fr2float (group1Of ln m)
      | none => findPctGo kws rest
    else findPctGo kws rest

/-- Embedding of `_find_pct_near`. -/
def findPctNear (t : List Char) (kws : List (List Char)) : Option ℚ :=
  findPctGo kws (linesOf t)

/-- The deposit keywords of `_find_acompte_pct`. -/
def acompteKws : List (List Char) :=
  [("acompte").data, ("à la commande").data, ("avance").data]

/-- Embedding of `_find_acompte_pct` (same loop as `_find_pct_near`, with the deposit
keywords baked in). -/
def findAcomptePct (t : List Char) : Option ℚ :=
  findPctGo acompteKws (linesOf t)

/-- The candidate surface values of `_find_surface`: every `M2_RE` group
capture over the whole text that parses and lies in `[1, 100000]`. -/
def surfaceCands (t : List Char) : List ℚ :=
  (pyFindIter t (m2Pat t.length)).filterMap (fun m =>
    match fr2float (group1Of t m) with
    | some v => if 1 ≤ v ∧ v ≤ 100000 then some v else none
    | none => none)

/-- Embedding of `_find_surface`: the maximum candidate, `None` when none. -/
def findSurface (t : List Char) : Option ℚ :=
  (surfaceCands t).max?

/-- The day-equivalent of one timeline match: `jour…`/`j` count as days,
`semaine…` as 7 days, anything else (`mois`) as 30 days. -/
def delaiDays (t : List Char) (m : Nat × MSt) : Nat :=
  let n := natOfDigits (group1Of t m)
  let unit := lowerStr (group2Of t m)
  if ("jour").data.isPrefixOf unit || unit == ['j'] then n
  else if ("semaine").data.isPrefixOf unit then n * 7
  else n * 30

/-- Embedding of `_find_delai_jours`: fold `best = max(best or 0, days)` over the
matches of the timeline regex; `None` when there is no match. -/
def findDelaiJours (t : List Char) : Option Nat :=
  (pyFindIter t delaiPat).foldl
    (fun b m => some (max (b.getD 0) (delaiDays t m))) none

/-- Embedding of `_find_decennale`: the insurance keyword regex matches somewhere. -/
def findDecennale (t : List Char) : Bool :=
  (pySearch t (decennalePat t.length)).isSome

/-- Embedding of `_inclusion`: `None` when the topic word never occurs; otherwise
`False` when some occurrence has a negation marker within the window
`text[max(0, start-50) : end+50]`, else `True`. -/
def inclusionOf (t : List Char) (w : Pat) : Option Bool :=
  match pySearch t w with
  | none => none
  | some _ =>
    some (!((pyFindIter t w).any (fun m =>
      let win := sliceStr t (m.1 - 50) (m.2.pos + 50)
      (pySearch win (negMarkPat win.length)).isSome)))

/-- The TTC keyword set of `extract_devis_info`. -/
def ttcKws : List (List Char) :=
  [("ttc").data, ("t.t.c").data, ("toutes taxes comprises").data,
   ("montant total").data, ("total général").data]

/-- The HT keyword set of `extract_devis_info`. -/
def htKws : List (List Char) :=
  [("ht").data, ("h.t").data, ("hors taxes").data]

/-- The VAT keyword set of `extract_devis_info`. -/
def tvaKws : List (List Char) :=
  [("tva").data, ("taxe sur la valeur ajout").data, ("taux tva").data]

/-- The result record of `extract_devis_info` (the `inclusions` sub-dict is
flattened into four fields). -/
structure DevisInfo where
  total_ttc : Option ℚ
  total_ht : Option ℚ
  tva_pct : Option ℚ
  surface_m2 : Option ℚ
  delai_jours : Option Nat
  acompte_pct : Option ℚ
  iban : Option (List Char)
  iban_country : Option (List Char)
  decennale : Bool
  inc_depose : Option Bool
  inc_echaf : Option Bool
  inc_finit : Option Bool
  inc_sav : Option Bool

/-- Embedding of `extract_devis_info`. -/
def extractDevisInfo (t : List Char) : DevisInfo :=
  let ibanM := pySearch t ibanPat
  let iban := ibanM.map (fun m => group1Of t m)
  { total_ttc := findAmountNear t ttcKws
    total_ht := findAmountNear t htKws
    tva_pct := findPctNear t tvaKws
    surface_m2 := findSurface t
    delai_jours := findDelaiJours t
    acompte_pct := findAcomptePct t
    iban := iban
    iban_country := iban.map (fun s => s.take 2)
    decennale := findDecennale t
    inc_depose := inclusionOf t wDepose
    inc_echaf := inclusionOf t wEchaf
    inc_finit := inclusionOf t wFinit
    inc_sav := inclusionOf t (wSav t.length) }

/-- The `eurm2` computation of the `/api/verify` handler: when both
`total_ttc` and `surface_m2` are truthy (present and non-zero),
`round(total_ttc / max(1.0, surface_m2), 2)`, else `None`. -/
def pyTruthyQ : Option ℚ → Bool
  | none => false
  | some q => q != 0

/-- Round-half-even on rationals (Python's `round` to an integer): with
`f = ⌊q⌋` and fractional part `r = q - f = (q.num - f·q.den) / q.den`, the
result is `f` when `r < 1/2`, `f + 1` when `r > 1/2`, and the even
neighbour at `r = 1/2`; the comparison `r ≶ 1/2` is carried out on the
integers as `2·(q.num - f·q.den) ≶ q.den` so that the function computes by
kernel reduction. -/
def rhe (q : ℚ) : ℤ :=
  let f := ⌊q⌋
  let r2 := 2 * (q.num - f * (q.den : ℤ))
  if r2 < (q.den : ℤ) then f
  else if (q.den : ℤ) < r2 then f + 1
  else if f % 2 = 0 then f else f + 1

/-- Python's `round(x, 2)` on the rational model. -/
def round2 (q : ℚ) : ℚ := (rhe (q * 100) : ℚ) / 100

/-- The `prix_m2` field computed by `verify` from the extraction record. -/
def computeEurM2 (e : DevisInfo) : Option ℚ :=
  if pyTruthyQ e.total_ttc && pyTruthyQ e.surface_m2 then
    some (round2 ((e.total_ttc.getD 0) / max 1 (e.surface_m2.getD 0)))
  else none

/-- The foreign-IBAN red-flag condition of `verify`: the country field is
truthy and differs from `"FR"`. -/
def foreignIbanFlag (c : Option (List Char)) : Bool :=
  match c with
  | some cc => !cc.isEmpty && cc ≠ ("FR").data
  | none => false

/-- The foreign-IBAN red flag raised for one extraction record. -/
def foreignRedFlag (e : DevisInfo) : Bool := foreignIbanFlag e.iban_country

/-- Modelled from the spec: §4.2's BankAccountExtractor locates the IBAN
token after removing whitespace from the text; this definition applies
the code's search to the whitespace-stripped text, for comparison with the
code's raw-text search. -/
def despace (t : List Char) : List Char := t.filter (fun c => !isSpaceChar c)

/-- The country field produced by the code: the first two characters of
the `IBAN_RE` capture found in the raw text. -/
def ibanCountryOf (t : List Char) : Option (List Char) :=
  ((pySearch t ibanPat).map (fun m => group1Of t m)).map (fun s => s.take 2)

/-- Modelled from the spec: the country field the spec describes, with the
search performed on the whitespace-stripped text. -/
def specIbanCountryOf (t : List Char) : Option (List Char) :=
  ibanCountryOf (despace t)

/-- Clamp an integer score into `[0, 100]` (`max(0, min(100, pts))`). -/
def clampScore (x : ℤ) : ℤ := max 0 (min 100 x)

/-- The identification score of `verify`: in strict mode with a SIRET
match the score is 100 outright; otherwise the weighted sum
`60·siretMatch + round(sim·15) + 15·addressMatch + 10·nafCoherent`,
clamped to `[0, 100]`. `sim` is the `difflib` similarity ratio in
`[0, 1]`. -/
def identificationPctOf (idStrict siretMatch addressMatch nafCoherent : Bool)
    (sim : ℚ) : ℤ :=
  if idStrict && siretMatch then 100
  else
    clampScore ((if siretMatch then 60 else 0) + rhe (sim * 15) +
      (if addressMatch then 15 else 0) + (if nafCoherent then 10 else 0))

/-- Embedding of `name_similarity_pct` as computed by `verify`: `int(round(sim * 100))`. -/
def nameSimilarityPctOf (sim : ℚ) : ℤ := rhe (sim * 100)

/-- Modelled from the spec: §4.3's weighted formula
`clamp(0,100, siretMatch?60:0 + round(nameSimilarityPct×0.15) +
addressMatch?15:0 + industryCodeCoherent?10:0)`, stated in terms of the
derived integer percentage, for comparison with the code's formula. -/
def specWeightedIdentificationPct (siretMatch addressMatch nafCoherent : Bool)
    (sim : ℚ) : ℤ :=
  clampScore ((if siretMatch then 60 else 0) +
    rhe ((nameSimilarityPctOf sim : ℚ) * (15 / 100)) +
    (if addressMatch then 15 else 0) + (if nafCoherent then 10 else 0))

/-- Modelled from the spec: §3's `IdentificationMatch` (only the fields the
risk-verdict engine consumes are carried). -/
structure SpecIdMatch where
  identificationPct : ℤ

/-- Modelled from the spec: §3's `ExtractedFinancials`. -/
structure SpecFinancials where
  totalTTC : Option ℚ
  totalHT : Option ℚ
  vatPct : Option ℚ
  depositPct : Option ℚ

/-- Modelled from the spec: §3's `ExtractedProjectInfo` plus the derived
price per square meter. -/
structure SpecProject where
  surfaceSqMeters : Option ℚ
  pricePerSqMeter : Option ℚ

/-- Modelled from the spec: §3's `InsuranceStatus`. -/
structure SpecInsurance where
  present : Bool
  monthsRemaining : Option ℤ

/-- Modelled from the spec: §3's `BankAccountInfo` reduced to the foreign
marker (null when no IBAN-like token was found). -/
structure SpecBank where
  isForeign : Option Bool

/-- Modelled from the spec: the risk tier enumeration. -/
inductive RiskLevel where
  | low
  | moderate
  | high
  deriving DecidableEq, Repr

/-- Modelled from the spec: §3's `RiskVerdict`. -/
structure RiskVerdict where
  globalScore : ℤ
  riskLevel : RiskLevel
  diagnostics : List String

/-- Modelled from the spec: §4.4 penalty 1 — deposit unknown −5, >60 −25,
>40 −15, >30 −5, else 0. -/
def depositPenalty (d : Option ℚ) : ℤ :=
  match d with
  | none => -5
  | some x => if 60 < x then -25 else if 40 < x then -15 else if 30 < x then -5 else 0

/-- Modelled from the spec: §4.4 penalty 2 — insurance absent −30, else
fewer than 6 months remaining −10. -/
def insurancePenalty (ins : SpecInsurance) : ℤ :=
  if !ins.present then -30
  else
    match ins.monthsRemaining with
    | some m => if m < 6 then -10 else 0
    | none => 0

/-- Modelled from the spec: §4.4 penalty 3 — foreign bank account −15. -/
def foreignPenalty (b : SpecBank) : ℤ :=
  if b.isForeign = some true then -15 else 0

/-- Modelled from the spec: §4.4 penalty 4 — identification below 100 −10. -/
def identPenalty (idm : SpecIdMatch) : ℤ :=
  if idm.identificationPct < 100 then -10 else 0

/-- Modelled from the spec: §4.4 penalty 5 — surface known but derived
price per square meter unknown −5. -/
def metricPenalty (p : SpecProject) : ℤ :=
  if p.surfaceSqMeters.isSome ∧ p.pricePerSqMeter.isNone then -5 else 0

/-- Modelled from the spec: §4.4 penalty 6 — total TTC unknown −10. -/
def totalPenalty (f : SpecFinancials) : ℤ :=
  if f.totalTTC.isNone then -10 else 0

/-- Modelled from the spec: §4.4's tier map — ≥80 low, ≥60 moderate,
otherwise high. -/
def tierOf (s : ℤ) : RiskLevel :=
  if 80 ≤ s then .low else if 60 ≤ s then .moderate else .high

/-- Modelled from the spec: §4.4's diagnostics — candidates in fixed
priority order, kept only when the matching penalty fired, truncated to 3. -/
def riskDiagnostics (idm : SpecIdMatch) (fin : SpecFinancials)
    (proj : SpecProject) (ins : SpecInsurance) (bank : SpecBank) : List String :=
  ((if depositPenalty fin.depositPct ≠ 0 then [("deposit issue" : String)] else []) ++
   (if insurancePenalty ins ≠ 0 then [("insurance issue" : String)] else []) ++
   (if foreignPenalty bank ≠ 0 then [("foreign account" : String)] else []) ++
   (if identPenalty idm ≠ 0 then [("incomplete identification" : String)] else []) ++
   (if metricPenalty proj ≠ 0 then [("missing derived metric" : String)] else [])).take 3

/-- Modelled from the spec: §4.4's risk-verdict engine, absent from
`src/main.py` — start from 100, apply the six penalties in their fixed
order, clamp to `[0, 100]`, map the score to a tier and attach at most
three diagnostics. -/
def riskVerdict (idm : SpecIdMatch) (fin : SpecFinancials) (proj : SpecProject)
    (ins : SpecInsurance) (bank : SpecBank) : RiskVerdict :=
  let score := clampScore (100 + depositPenalty fin.depositPct +
    insurancePenalty ins + foreignPenalty bank + identPenalty idm +
    metricPenalty proj + totalPenalty fin)
  { globalScore := score
    riskLevel := tierOf score
    diagnostics := riskDiagnostics idm fin proj ins bank }

/-- One result entry of the `/api/verify` batch: either a fully populated
per-document payload or the `{file, error}` record produced by the
per-document `except` clause. -/
inductive BatchEntry (β : Type) where
  | done (file : String) (payload : β)
  | failed (file : String) (msg : String)
  deriving DecidableEq, Repr

/-- The batch response of `/api/verify`: the top-level `ok` flag and the
ordered result list. -/
structure BatchOut (β : Type) where
  ok : Bool
  results : List (BatchEntry β)
  deriving DecidableEq, Repr

/-- The body of `verify`'s per-document `try/except`: the per-document
pipeline (text decoding, lookups, extraction, scoring — modelled as an
injected fallible function since it is dominated by excluded I/O) either
yields a payload or raises, and a raised exception becomes a
`{file, error}` entry for that document alone. -/
def docEntry {α β : Type} (pipe : α → Except String β) (fname : α → String)
    (f : α) : BatchEntry β :=
  match pipe f with
  | .ok b => .done (fname f) b
  | .error e => .failed (fname f) e

/-- Embedding of `verify`: fold the per-document loop over the uploaded files, always
returning `ok = True` with one entry per file in input order. -/
def verifyBatch {α β : Type} (pipe : α → Except String β) (fname : α → String)
    (files : List α) : BatchOut β :=
  { ok := true, results := files.map (docEntry pipe fname) }

/-- The fixed legal-suffix stop set `LEGAL_SUFFIX`. -/
def legalSuffix : List (List Char) :=
  [("sarl").data, ("sas").data, ("sasu").data, ("eurl").data, ("sa").data,
   ("sci").data, ("snc").data, ("scea").data, ("ei").data, ("eirl").data,
   ("sarl.").data, ("sas.").data, ("sasu.").data, ("sa.").data]

/-- The per-character substitution of `_norm`'s `re.sub(r"[^\w\s]", " ", s)`:
characters that are neither word characters nor whitespace become spaces. -/
def subChar (c : Char) : Char :=
  if isWordChar c || isSpaceChar c then c else ' '

/-- Python's `str.split()` (no separator): maximal runs of non-whitespace. -/
def pyWords : List Char → List (List Char)
  | [] => []
  | c :: cs =>
    if isSpaceChar c then pyWords cs
    else
      (c :: cs.takeWhile (fun x => !isSpaceChar x)) ::
        pyWords (cs.dropWhile (fun x => !isSpaceChar x))
  termination_by l => l.length
  decreasing_by
    · simp
    · simp only [List.length_cons]
      exact Nat.lt_succ_of_le (List.dropWhile_sublist _).length_le

/-- Embedding of `" ".join(tokens)`. -/
def joinSp : List (List Char) → List Char
  | [] => []
  | [t] => t
  | t :: u :: rest => t ++ ' ' :: joinSp (u :: rest)

/-- Embedding of `_norm`: empty for a falsy input; otherwise replace every character
that is neither a word character nor whitespace by a space, lowercase,
split on whitespace, drop empty tokens and legal-suffix tokens, and join
with single spaces. -/
def normStr (s : List Char) : List Char :=
  if s = [] then []
  else
    joinSp (((pyWords ((s.map subChar).map pyLower)).filter
      (fun tk => !tk.isEmpty && !legalSuffix.contains tk)))

theorem runs_pos_le (t : List Char) :
    ∀ (p : Pat) (st st' : MSt), st' ∈ Pat.runs t p st → st.pos ≤ st'.pos := by
  intro p
  induction p with
  | cls q =>
    intro st st' h
    simp only [Pat.runs] at h
    cases hg : t.get? st.pos with
    | none => rw [hg] at h; simp at h
    | some c =>
      rw [hg] at h
      by_cases hq : q c
      · simp [hq] at h; simp [h]
      · simp [hq] at h
  | eps => intro st st' h; simp [Pat.runs] at h; simp [h]
  | seq a b iha ihb =>
    intro st st' h
    simp only [Pat.runs, List.mem_flatMap] at h
    obtain ⟨mid, h1, h2⟩ := h
    exact le_trans (iha st mid h1) (ihb mid st' h2)
  | alt a b iha ihb =>
    intro st st' h
    simp only [Pat.runs, List.mem_append] at h
    cases h with
    | inl h => exact iha st st' h
    | inr h => exact ihb st st' h
  | opt a iha =>
    intro st st' h
    simp only [Pat.runs, List.mem_append, List.mem_singleton] at h
    cases h with
    | inl h => exact iha st st' h
    | inr h => simp [h]
  | wb =>
    intro st st' h
    simp only [Pat.runs] at h
    by_cases hb : atBoundary t st.pos
    · simp [hb] at h; simp [h]
    · simp [hb] at h
  | nlb q =>
    intro st st' h
    simp only [Pat.runs] at h
    cases hp : prevChar t st.pos with
    | none => rw [hp] at h; simp at h; simp [h]
    | some c =>
      rw [hp] at h
      by_cases hq : q c
      · simp [hq] at h
      · simp [hq] at h; simp [h]
  | grp1 a iha =>
    intro st st' h
    simp only [Pat.runs, List.mem_map] at h
    obtain ⟨e, he, rfl⟩ := h
    exact iha st e he
  | grp2 a iha =>
    intro st st' h
    simp only [Pat.runs, List.mem_map] at h
    obtain ⟨e, he, rfl⟩ := h
    exact iha st e he

theorem runs_seq_mem {t : List Char} {a b : Pat} {st st' : MSt}
    (h : st' ∈ Pat.runs t (.seq a b) st) :
    ∃ mid, mid ∈ Pat.runs t a st ∧ st' ∈ Pat.runs t b mid := by
  simpa only [Pat.runs, List.mem_flatMap] using h

theorem runs_wb_mem {t : List Char} {st st' : MSt}
    (h : st' ∈ Pat.runs t .wb st) : st' = st := by
  simp only [Pat.runs] at h
  by_cases hb : atBoundary t st.pos
  · simpa [hb] using h
  · simp [hb] at h

theorem runs_eps_mem {t : List Char} {st st' : MSt}
    (h : st' ∈ Pat.runs t .eps st) : st' = st := by
  simpa [Pat.runs] using h

theorem runs_cls_mem {t : List Char} {q : Char → Bool} {st st' : MSt}
    (h : st' ∈ Pat.runs t (.cls q) st) :
    ∃ c, t.get? st.pos = some c ∧ q c = true ∧
      st' = { st with pos := st.pos + 1 } := by
  simp only [Pat.runs] at h
  cases hg : t.get? st.pos with
  | none => rw [hg] at h; simp at h
  | some c =>
    rw [hg] at h
    by_cases hq : q c
    · simp only [hq, if_true, List.mem_singleton] at h
      exact ⟨c, rfl, hq, h⟩
    · simp [hq] at h

theorem runs_seq_cls_head {t : List Char} {q : Char → Bool} {r : Pat} {st st' : MSt}
    (h : st' ∈ Pat.runs t (.seq (.cls q) r) st) :
    ∃ c, t.get? st.pos = some c ∧ q c = true ∧ st.pos + 1 ≤ st'.pos := by
  obtain ⟨mid, h1, h2⟩ := runs_seq_mem h
  obtain ⟨c, hg, hq, rfl⟩ := runs_cls_mem h1
  exact ⟨c, hg, hq, runs_pos_le t r _ _ h2⟩

theorem searchAux_mem {t : List Char} {p : Pat} :
    ∀ {fuel i s : Nat} {st : MSt}, searchAux t p fuel i = some (s, st) →
      st ∈ Pat.runs t p ⟨s, none, none⟩ := by
  intro fuel
  induction fuel with
  | zero => intro i s st h; simp [searchAux] at h
  | succ f ih =>
    intro i s st h
    simp only [searchAux] at h
    cases hr : Pat.runs t p ⟨i, none, none⟩ with
    | nil => rw [hr] at h; exact ih h
    | cons st0 rest =>
      rw [hr] at h
      simp only [Option.some.injEq, Prod.mk.injEq] at h
      obtain ⟨rfl, rfl⟩ := h
      rw [hr]
      exact List.mem_cons_self _ _

theorem pySearch_mem {t : List Char} {p : Pat} {s : Nat} {st : MSt}
    (h : pySearch t p = some (s, st)) : st ∈ Pat.runs t p ⟨s, none, none⟩ :=
  searchAux_mem h

theorem siret_match_digit {t : List Char} {s : Nat} {st : MSt}
    (h : pySearch t siretPat = some (s, st)) :
    ∃ c, t.get? s = some c ∧ c.isDigit = true ∧ s + 1 ≤ st.pos := by
  have hm := pySearch_mem h
  have hshape : siretPat = Pat.seq .wb (Pat.seq
      (Pat.seq (Pat.seq (Pat.cls Char.isDigit) (Pat.opt sepCls))
        (repExact 13 (Pat.seq pdig (Pat.opt sepCls))))
      (Pat.seq .wb Pat.eps)) := rfl
  rw [hshape] at hm
  obtain ⟨mid1, hw, h2⟩ := runs_seq_mem hm
  obtain rfl := runs_wb_mem hw
  obtain ⟨mid2, h3, h4⟩ := runs_seq_mem h2
  obtain ⟨mid3, h5, h6⟩ := runs_seq_mem h3
  obtain ⟨c, hg, hq, hle⟩ := runs_seq_cls_head h5
  have hle2 : s + 1 ≤ mid3.pos := hle
  refine ⟨c, hg, hq, ?_⟩
  have l1 : mid3.pos ≤ mid2.pos := runs_pos_le t _ _ _ h6
  have l2 : mid2.pos ≤ st.pos := runs_pos_le t _ _ _ h4
  omega

theorem mem_sliceStr_head {t : List Char} {a b : Nat} {c : Char}
    (hg : t.get? a = some c) (hab : a + 1 ≤ b) : c ∈ sliceStr t a b := by
  have h1 : (sliceStr t a b).get? 0 = some c := by
    simp only [sliceStr, List.get?_eq_getElem?]
    rw [List.getElem?_drop]
    rw [List.getElem?_take_of_lt (by omega : a + 0 < b)]
    simpa [← List.get?_eq_getElem?] using hg
  exact List.get?_mem h1

theorem siret_digits_take_ne_nil {t : List Char} {s : Nat} {st : MSt}
    (h : pySearch t siretPat = some (s, st)) :
    (digitsOf (matchStr t (s, st))).take 14 ≠ [] := by
  obtain ⟨c, hg, hd, hle⟩ := siret_match_digit h
  have hc : c ∈ matchStr t (s, st) := mem_sliceStr_head hg hle
  have hcd : c ∈ digitsOf (matchStr t (s, st)) := List.mem_filter.mpr ⟨hc, hd⟩
  have hne : digitsOf (matchStr t (s, st)) ≠ [] := List.ne_nil_of_mem hcd
  intro hcon
  rcases List.take_eq_nil_iff.mp hcon with h14 | hnil
  · exact absurd h14 (by omega)
  · exact hne hnil

theorem extractIds_of_siret_none {t : List Char}
    (hs : pySearch t siretPat = none) :
    extractIds t = ⟨none, (pySearch t sirenPat).map
      (fun m => (digitsOf (matchStr t m)).take 9)⟩ := by
  cases hsi : pySearch t sirenPat with
  | none => simp [extractIds, hs, hsi, pyTruthyStr]
  | some m => simp [extractIds, hs, hsi, pyTruthyStr]

theorem extractIds_of_siret_some {t : List Char} {s : Nat} {st : MSt}
    (hs : pySearch t siretPat = some (s, st)) :
    extractIds t = ⟨some ((digitsOf (matchStr t (s, st))).take 14),
      some (((digitsOf (matchStr t (s, st))).take 14).take 9)⟩ := by
  have hne := siret_digits_take_ne_nil hs
  have hne9 : ((digitsOf (matchStr t (s, st))).take 14).take 9 ≠ [] := by
    intro hcon
    rcases List.take_eq_nil_iff.mp hcon with h9 | hnil
    · exact absurd h9 (by omega)
    · exact hne hnil
  have htr : pyTruthyStr (some (((digitsOf (matchStr t (s, st))).take 14).take 9)) = true := by
    simp [pyTruthyStr, List.isEmpty_iff, hne9]
  simp [extractIds, hs, htr]

/-- C3: identifier extraction — a word-bounded 14-digit token (with
optional space/dot/dash separators) is found by `SIRET_RE`; its separators
are stripped and `siret` is those 14 digits with `siren` its first 9
digits; only when no such token exists is a bounded 9-digit token searched
independently for `siren`; whenever `siret` is returned, `siren` is its
first 9 digits; on `"123 456 789 00011"` the result is siret
`"12345678900011"` and siren `"123456789"`. -/
theorem extract_ids_claim :
    ((extractIds ("123 456 789 00011").data).siret =
        some (("12345678900011").data) ∧
     (extractIds ("123 456 789 00011").data).siren =
        some (("123456789").data)) ∧
    (∀ t : List Char, ∀ sv, (extractIds t).siret = some sv →
        (extractIds t).siren = some (sv.take 9)) ∧
    (∀ t : List Char, pySearch t siretPat = none →
        (extractIds t).siret = none ∧
        (extractIds t).siren = (pySearch t sirenPat).map
          (fun m => (digitsOf (matchStr t m)).take 9)) ∧
    (∀ t : List Char, ∀ s st, pySearch t siretPat = some (s, st) →
        (extractIds t).siret = some ((digitsOf (matchStr t (s, st))).take 14)) := by
  refine ⟨by decide, ?_, ?_, ?_⟩
  · intro t sv hsv
    cases hs : pySearch t siretPat with
    | none =>
      rw [extractIds_of_siret_none hs] at hsv
      simp at hsv
    | some m =>
      obtain ⟨s, st⟩ := m
      rw [extractIds_of_siret_some hs] at hsv ⊢
      simp only [Option.some.injEq] at hsv
      simp [hsv]
  · intro t hs
    rw [extractIds_of_siret_none hs]
    exact ⟨rfl, rfl⟩
  · intro t s st hs
    rw [extractIds_of_siret_some hs]

/-- Witness for `extract_ids_claim`: its invariant applied to the concrete
document `"123 456 789 00011"`. -/
theorem extract_ids_claim_witness :
    (extractIds ("123 456 789 00011").data).siren =
      some ((("12345678900011").data).take 9) :=
  extract_ids_claim.2.1 (("123 456 789 00011").data) (("12345678900011").data)
    (by decide)

/-- C1 counterexample: the claim maps `"1.234,56"` to `1234.56`, but
`_fr2float` never removes a grouping dot (its comma-removal branch needs
more than one comma), so `float("1.234,56")` fails and the result is
`None`. -/
theorem fr2float_grouping_dots_counterexample :
    fr2float (("1.234,56").data) = none ∧
    fr2float (("1.234,56").data) ≠ some (1234.56 : ℚ) := by
  have hlit : (1234.56 : ℚ) = mkRat 123456 100 := by norm_num [Rat.mkRat_eq_div]
  rw [hlit]
  constructor
  · decide
  · decide

/-- C1 amended: `_fr2float` removes spaces and non-breaking spaces, strips
every character other than digits, commas and dots, removes all commas
only when there are at least two commas together with a dot, converts a
single remaining comma (with no dot) to a decimal point, and parses;
grouping dots are never removed, so `"1.234,56"` yields `None` while
`"12 345,67"` parses to `12345.67`, and a non-numeric remainder after
cleanup yields `None` rather than an error. -/
theorem fr2float_amended_rule :
    fr2float (("12 345,67").data) = some (12345.67 : ℚ) ∧
    fr2float (("1.234,56").data) = none ∧
    (∀ s : List Char, pyFloat (fr2clean s) = none → fr2float s = none) := by
  have hlit : (12345.67 : ℚ) = mkRat 1234567 100 := by norm_num [Rat.mkRat_eq_div]
  refine ⟨by rw [hlit]; decide, by decide, ?_⟩
  intro s h
  by_cases hs : s = []
  · simp [fr2float, hs]
  · simp [fr2float, hs, h]

/-- Witness for `fr2float_amended_rule`: its totality clause applied to the
concrete non-numeric input `"abc"`. -/
theorem fr2float_amended_rule_witness : fr2float (("abc").data) = none :=
  fr2float_amended_rule.2.2 (("abc").data) (by decide)

theorem findPctGo_eq_find (kws : List (List Char)) :
    ∀ l : List (List Char),
      findPctGo kws l =
        (l.find? (fun ln => kwHit kws ln && (pySearch ln pctPat).isSome)).bind
          (fun ln =>
            match pySearch ln pctPat with
            | some m => fr2float (group1Of ln m)
            | none => none) := by
  intro l
  induction l with
  | nil => simp [findPctGo]
  | cons ln rest ih =>
    by_cases h1 : kwHit kws ln
    · cases h2 : pySearch ln pctPat with
      | some m =>
        have hp : (kwHit kws ln && (pySearch ln pctPat).isSome) = true := by
          simp [h1, h2]
        simp [findPctGo, List.find?, hp, h1, h2]
      | none =>
        have hp : (kwHit kws ln && (pySearch ln pctPat).isSome) = false := by
          simp [h1, h2]
        simp [findPctGo, List.find?, hp, h1, h2, ih]
    · have hp : (kwHit kws ln && (pySearch ln pctPat).isSome) = false := by
        simp [h1]
      simp [findPctGo, List.find?, hp, h1, ih]

/-- C2 counterexample: a deposit keyword on line 0 with the percentage
token only on line 1 — the claim demands 30.0, but `_find_acompte_pct`
(like `_find_pct_near`) only inspects the keyword line itself and returns
`None`. The remaining conjuncts exhibit that line 0 carries the keyword
and line 1 carries a parseable percentage token. -/
theorem pct_next_line_counterexample :
    findAcomptePct (("acompte\n30%").data) = none ∧
    findAcomptePct (("acompte\n30%").data) ≠ some (30 : ℚ) ∧
    linesOf (("acompte\n30%").data) = [("acompte").data, ("30%").data] ∧
    kwHit acompteKws (("acompte").data) = true ∧
    (pySearch (("30%").data) pctPat).isSome = true ∧
    fr2float (("30").data) = some (30 : ℚ) := by
  refine ⟨by decide, by decide, by decide, by decide, by decide, by decide⟩

/-- C2 amended: the percentage extractor returns the parse of the first
percentage token lying on a line that itself contains a keyword; lines
following a keyword line are never consulted, so a percentage only on line
`i+1` is not found. `_find_acompte_pct` is the same loop run with the
deposit keywords. -/
theorem find_pct_keyword_line_only :
    (∀ (t : List Char) (kws : List (List Char)),
      findPctNear t kws =
        ((linesOf t).find? (fun ln => kwHit kws ln && (pySearch ln pctPat).isSome)).bind
          (fun ln =>
            match pySearch ln pctPat with
            | some m => fr2float (group1Of ln m)
            | none => none)) ∧
    (∀ t : List Char, findAcomptePct t = findPctNear t acompteKws) := by
  exact ⟨fun t kws => findPctGo_eq_find kws (linesOf t), fun t => rfl⟩

theorem listAny_congr {α : Type} (f g : α → Bool) :
    ∀ l : List α, (∀ x ∈ l, f x = g x) → l.any f = l.any g := by
  intro l h
  induction l with
  | nil => rfl
  | cons a rest ih =>
    simp only [List.any_cons]
    rw [h a (List.mem_cons_self a rest), ih (fun x hx => h x (List.mem_cons_of_mem a hx))]

theorem amountValsWith_congr (hit1 hit2 : List (List Char) → List Char → Bool)
    (t : List Char) (kws : List (List Char))
    (h : ∀ ln, hit1 kws ln = hit2 kws ln) :
    amountValsWith hit1 t kws = amountValsWith hit2 t kws := by
  simp only [amountValsWith]
  congr 1
  funext i
  rw [h]

/-- C4 counterexample: the claim says lines containing a keyword
case-insensitively qualify, but the code lowercases only the line, not the
keyword: with keyword set `["TTC"]` the line `"TTC 100"` contains the
keyword verbatim, yet `_find_amount_near` returns `None` where the
case-insensitive reading (`specFindAmountNear`) returns 100.0. -/
theorem amount_keyword_case_counterexample :
    findAmountNear (("TTC 100").data) [("TTC").data] = none ∧
    specFindAmountNear (("TTC 100").data) [("TTC").data] = some (100 : ℚ) := by
  exact ⟨by decide, by decide⟩

/-- C4 amended: the amount extractor collects locale-formatted tokens only
from windows (keyword line concatenated with the following line) whose
line contains a keyword as a substring of the lowercased line — which is
case-insensitive exactly when the keyword is already lowercase, as all
built-in keyword sets are — and returns the maximum parsed value across
all windows, `None` when no value parses. -/
theorem find_amount_near_amended :
    (∀ (t : List Char) (kws : List (List Char)),
      (∀ k ∈ kws, lowerStr k = k) →
      findAmountNear t kws = specFindAmountNear t kws) ∧
    (∀ (t : List Char) (kws : List (List Char)) (v : ℚ),
      findAmountNear t kws = some v →
        v ∈ amountValsWith kwHit t kws ∧ ∀ w ∈ amountValsWith kwHit t kws, w ≤ v) ∧
    (∀ (t : List Char) (kws : List (List Char)),
      findAmountNear t kws = none ↔ amountValsWith kwHit t kws = []) := by
  refine ⟨?_, ?_, ?_⟩
  · intro t kws hk
    have : amountValsWith kwHit t kws = amountValsWith ciKwHit t kws := by
      apply amountValsWith_congr
      intro ln
      simp only [kwHit, ciKwHit]
      apply listAny_congr
      intro k hkm
      rw [hk k hkm]
    simp [findAmountNear, specFindAmountNear, this]
  · intro t kws v hv
    haveI : Std.Antisymm (fun a b : ℚ => a ≤ b) := ⟨fun h1 h2 => le_antisymm h1 h2⟩
    have := (List.max?_eq_some_iff (fun a => le_refl a) (fun a b => max_choice a b)
      (fun a b c => max_le_iff)).mp hv
    exact this
  · intro t kws
    simp [findAmountNear, List.max?_eq_none_iff]

/-- Witness for `find_amount_near_amended`: the refinement clause applied
to the lowercase keyword set `["ttc"]` on a concrete document. -/
theorem find_amount_near_amended_witness :
    findAmountNear (("ttc 250").data) [("ttc").data] =
      specFindAmountNear (("ttc 250").data) [("ttc").data] :=
  find_amount_near_amended.1 (("ttc 250").data) [("ttc").data] (by decide)

/-- C5: the risk-verdict engine starts from 100, applies the six penalties
independently in their fixed order, clamps to `[0, 100]`, maps the score
to a tier with the exact thresholds (80 → low, 79 → moderate,
60 → moderate, 59 → high) and always emits at most three diagnostics. -/
theorem risk_verdict_claim :
    (∀ (idm : SpecIdMatch) (fin : SpecFinancials) (proj : SpecProject)
        (ins : SpecInsurance) (bank : SpecBank),
      (riskVerdict idm fin proj ins bank).globalScore =
        clampScore (100 + depositPenalty fin.depositPct + insurancePenalty ins +
          foreignPenalty bank + identPenalty idm + metricPenalty proj +
          totalPenalty fin) ∧
      0 ≤ (riskVerdict idm fin proj ins bank).globalScore ∧
      (riskVerdict idm fin proj ins bank).globalScore ≤ 100 ∧
      (riskVerdict idm fin proj ins bank).riskLevel =
        tierOf (riskVerdict idm fin proj ins bank).globalScore ∧
      (riskVerdict idm fin proj ins bank).diagnostics.length ≤ 3) ∧
    tierOf 80 = .low ∧ tierOf 79 = .moderate ∧ tierOf 60 = .moderate ∧
    tierOf 59 = .high := by
  refine ⟨?_, by decide, by decide, by decide, by decide⟩
  intro idm fin proj ins bank
  refine ⟨rfl, ?_, ?_, rfl, ?_⟩
  · exact le_max_left 0 _
  · exact max_le (by norm_num) (min_le_left 100 _)
  · simp [riskVerdict, riskDiagnostics]

/-- A concrete three-document pipeline for the batch property: the second
document raises, the others produce payloads. -/
def demoPipe : String → Except String Nat :=
  fun s => if s == ("b.pdf") then .error ("boom") else .ok s.length

/-- C6: an exception while processing one document becomes a
`{file, error}` entry for that document only — the batch keeps exactly one
entry per input document in input order, entries are computed
independently per document (`docEntry`), the top-level success flag is
always true, and on a concrete 3-document batch with a faulty middle
document the other two entries are fully populated. -/
theorem verify_batch_isolation :
    (∀ (α β : Type) (pipe : α → Except String β) (fname : α → String)
        (files : List α),
      (verifyBatch pipe fname files).ok = true ∧
      (verifyBatch pipe fname files).results.length = files.length ∧
      (∀ i : Nat, (verifyBatch pipe fname files).results.get? i =
        (files.get? i).map (docEntry pipe fname)) ∧
      (∀ (f : α) (b : β), pipe f = .ok b →
        docEntry pipe fname f = .done (fname f) b) ∧
      (∀ (f : α) (e : String), pipe f = .error e →
        docEntry pipe fname f = .failed (fname f) e)) ∧
    verifyBatch demoPipe id ["a.pdf", "b.pdf", "c.pdf"] =
      ⟨true, [.done ("a.pdf") 5, .failed ("b.pdf") ("boom"), .done ("c.pdf") 5]⟩ := by
  refine ⟨?_, by decide⟩
  intro α β pipe fname files
  refine ⟨rfl, by simp [verifyBatch], ?_, ?_, ?_⟩
  · intro i
    simp [verifyBatch, List.get?_eq_getElem?, List.getElem?_map]
  · intro f b hb
    simp [docEntry, hb]
  · intro f e he
    simp [docEntry, he]

/-- Witness for `verify_batch_isolation`: its error-entry clause applied to
the concrete faulty document of `demoPipe`. -/
theorem verify_batch_isolation_witness :
    docEntry demoPipe id ("b.pdf") = .failed (id ("b.pdf")) ("boom") :=
  (verify_batch_isolation.1 String Nat demoPipe id
    ["a.pdf", "b.pdf", "c.pdf"]).2.2.2.2 ("b.pdf") ("boom") (by rfl)

theorem runs_grp1_mem {t : List Char} {a : Pat} {st st' : MSt}
    (h : st' ∈ Pat.runs t (.grp1 a) st) :
    ∃ e, e ∈ Pat.runs t a st ∧ st' = { e with g1 := some (st.pos, e.pos) } := by
  have heq : Pat.runs t (.grp1 a) st
      = (Pat.runs t a st).map (fun e => { e with g1 := some (st.pos, e.pos) }) := rfl
  rw [heq] at h
  obtain ⟨e, he, hfe⟩ := List.mem_map.mp h
  exact ⟨e, he, hfe.symm⟩

theorem iban_search_group {t : List Char} {s : Nat} {st : MSt}
    (h : pySearch t ibanPat = some (s, st)) :
    ∃ e : Nat, st.g1 = some (s, e) ∧ s + 1 ≤ e ∧
      ∃ c, t.get? s = some c ∧ (65 ≤ c.toNat && c.toNat ≤ 90) = true := by
  have hm := pySearch_mem h
  have hshape : ibanPat = Pat.seq .wb (Pat.seq
      (Pat.grp1 (Pat.seq (Pat.seq upperCls (Pat.seq upperCls Pat.eps))
        (Pat.seq (repExact 2 pdig) (Pat.seq (repExact 11 upDigCls)
          (Pat.seq (repUpToP 19 upDigCls) Pat.eps)))))
      (Pat.seq .wb Pat.eps)) := rfl
  rw [hshape] at hm
  obtain ⟨mid1, hw, h2⟩ := runs_seq_mem hm
  obtain rfl := runs_wb_mem hw
  obtain ⟨mid2, hgp, h3⟩ := runs_seq_mem h2
  obtain ⟨mid3, hw2, h4⟩ := runs_seq_mem h3
  obtain rfl := runs_wb_mem hw2
  obtain rfl := runs_eps_mem h4
  obtain ⟨e, he, rfl⟩ := runs_grp1_mem hgp
  obtain ⟨m1, hU, hrest⟩ := runs_seq_mem he
  have hupper : ∃ c, t.get? s = some c ∧
      (fun c : Char => 65 ≤ c.toNat && c.toNat ≤ 90) c = true ∧
      s + 1 ≤ m1.pos := runs_seq_cls_head hU
  obtain ⟨c, hg, hq, hle⟩ := hupper
  refine ⟨e.pos, rfl, ?_, c, hg, hq⟩
  have := runs_pos_le t _ _ _ hrest
  omega

/-- C7 counterexample: the claim locates the IBAN token "after removing
whitespace from the text", but the code searches the raw text: on a
space-grouped IBAN the code finds nothing (country `None`), while the
spec's whitespace-stripped reading (`specIbanCountryOf`) yields `"FR"`. -/
theorem iban_whitespace_counterexample :
    ibanCountryOf (("FR76 12345678901").data) = none ∧
    specIbanCountryOf (("FR76 12345678901").data) = some (("FR").data) ∧
    (extractDevisInfo (("FR76 12345678901").data)).iban_country = none := by
  refine ⟨by decide, by decide, by decide⟩

/-- C7 amended: the bank-account extractor searches the raw text (no
whitespace removal) for the IBAN-shaped token; when a match exists the
country field is the first two characters of the captured token (a
non-empty string of capital letters by the shape of `IBAN_RE`, so no
uppercasing is applied), and the foreign-account red flag fires exactly
when that field differs from `"FR"`; when there is no match the country
field is `None` and no foreign-account signal is produced. -/
theorem iban_country_amended :
    ∀ t : List Char,
      ((extractDevisInfo t).iban_country = none →
        foreignRedFlag (extractDevisInfo t) = false) ∧
      (∀ cc, (extractDevisInfo t).iban_country = some cc →
        cc ≠ [] ∧
        (foreignRedFlag (extractDevisInfo t) = true ↔ cc ≠ ("FR").data) ∧
        ∃ s st, pySearch t ibanPat = some (s, st) ∧
          cc = (group1Of t (s, st)).take 2) := by
  intro t
  have hic : (extractDevisInfo t).iban_country =
      ((pySearch t ibanPat).map (fun m => group1Of t m)).map (fun s => s.take 2) := rfl
  have hff : foreignRedFlag (extractDevisInfo t) =
      foreignIbanFlag ((extractDevisInfo t).iban_country) := rfl
  constructor
  · intro hnone
    rw [hff, hnone]
    rfl
  · intro cc hcc
    cases hs : pySearch t ibanPat with
    | none => rw [hic, hs] at hcc; simp at hcc
    | some m =>
      obtain ⟨s, st⟩ := m
      rw [hic, hs] at hcc
      simp only [Option.map_some', Option.some.injEq] at hcc
      obtain ⟨e, hg1, hse, c, hgc, hcu⟩ := iban_search_group hs
      subst hcc
      have hmem : c ∈ group1Of t (s, st) := by
        simp only [group1Of, hg1]
        exact mem_sliceStr_head hgc hse
      have hne : (group1Of t (s, st)).take 2 ≠ [] := by
        intro hcon
        rcases List.take_eq_nil_iff.mp hcon with h2 | hnil
        · exact absurd h2 (by omega)
        · exact List.ne_nil_of_mem hmem hnil
      have hemp : ((group1Of t (s, st)).take 2).isEmpty = false := by
        simp [List.isEmpty_iff, hne]
      refine ⟨hne, ?_, s, st, hs.symm ▸ rfl, rfl⟩
      rw [hff, hic, hs]
      show (foreignIbanFlag (some ((group1Of t (s, st)).take 2)) = true) ↔ _
      simp [foreignIbanFlag, hemp]

/-- Witness for `iban_country_amended`: applied to a concrete German IBAN,
whose country field is `"DE"`, so the foreign-account red flag fires. -/
theorem iban_country_amended_witness :
    foreignRedFlag (extractDevisInfo (("DE89370400440532013000").data)) = true := by
  have h := (iban_country_amended (("DE89370400440532013000").data)).2
    (("DE").data) (by decide)
  exact h.2.1.mpr (by decide)

theorem findSurface_ge_one {t : List Char} {v : ℚ}
    (h : findSurface t = some v) : 1 ≤ v := by
  have hmem : v ∈ surfaceCands t :=
    List.max?_mem (fun a b => max_choice a b) h
  simp only [surfaceCands, List.mem_filterMap] at hmem
  obtain ⟨m, _, hv⟩ := hmem
  cases hf : fr2float (group1Of t m) with
  | none => rw [hf] at hv; simp at hv
  | some w =>
    rw [hf] at hv
    by_cases hb : 1 ≤ w ∧ w ≤ 100000
    · simp only at hv
      rw [if_pos hb] at hv
      obtain rfl : w = v := Option.some.inj hv
      exact hb.1
    · simp [hb] at hv

/-- The totalTTC example document of §8: total line and surface line. -/
def exGoodC8 : List Char := ("montant total 3 500,00 €\n\nsurface 50 m2").data

/-- The zero-total document exposing the truthiness guard of `verify`. -/
def exZeroC8 : List Char := ("montant total 0,00\n\nsurface 50 m2").data

/-- C8 counterexample: both `totalTTC` (0.0) and `surfaceSqMeters` (50.0)
are extracted, so the claim demands `round(0 / max(1, 50), 2) = 0.0`, but
`verify` guards the computation with Python truthiness (`if extr.get(...)
and ...`), under which the float `0.0` is falsy: `prix_m2` is `None`. -/
theorem price_per_sqm_truthiness_counterexample :
    (extractDevisInfo exZeroC8).total_ttc = some 0 ∧
    (extractDevisInfo exZeroC8).surface_m2 = some 50 ∧
    computeEurM2 (extractDevisInfo exZeroC8) = none ∧
    ∀ q : ℚ, computeEurM2 (extractDevisInfo exZeroC8) ≠ some q := by
  have h3 : computeEurM2 (extractDevisInfo exZeroC8) = none := by decide
  refine ⟨by decide, by decide, h3, ?_⟩
  intro q hcon
  rw [h3] at hcon
  exact Option.noConfusion hcon

/-- C8 amended: whenever `totalTTC` is extracted non-zero and
`surfaceSqMeters` is extracted (necessarily at least 1), the derived price
per square meter is `round(totalTTC / max(1, surface), 2)`; when the total
is missing or zero, or the surface is missing, it is `None`; on the
concrete document with total `"3 500,00 €"` and surface 50 the result is
exactly 70.00. -/
theorem price_per_sqm_amended :
    (∀ (t : List Char) (v sv : ℚ),
      (extractDevisInfo t).total_ttc = some v → v ≠ 0 →
      (extractDevisInfo t).surface_m2 = some sv →
      computeEurM2 (extractDevisInfo t) = some (round2 (v / max 1 sv))) ∧
    (∀ t : List Char,
      (extractDevisInfo t).total_ttc = none ∨
      (extractDevisInfo t).total_ttc = some 0 ∨
      (extractDevisInfo t).surface_m2 = none →
      computeEurM2 (extractDevisInfo t) = none) ∧
    ((extractDevisInfo exGoodC8).total_ttc = some 3500 ∧
     (extractDevisInfo exGoodC8).surface_m2 = some 50 ∧
     computeEurM2 (extractDevisInfo exGoodC8) = some 70) := by
  have hmain : ∀ (t : List Char) (v sv : ℚ),
      (extractDevisInfo t).total_ttc = some v → v ≠ 0 →
      (extractDevisInfo t).surface_m2 = some sv →
      computeEurM2 (extractDevisInfo t) = some (round2 (v / max 1 sv)) := by
    intro t v sv ht hv hs
    have hs1 : (1 : ℚ) ≤ sv := findSurface_ge_one hs
    have hsv : sv ≠ 0 := by intro hcon; rw [hcon] at hs1; norm_num at hs1
    simp [computeEurM2, ht, hs, pyTruthyQ, hv, hsv]
  refine ⟨hmain, ?_, ?_⟩
  · intro t hc
    rcases hc with h | h | h
    · simp [computeEurM2, h, pyTruthyQ]
    · simp [computeEurM2, h, pyTruthyQ]
    · simp [computeEurM2, h, pyTruthyQ]
  · have h1 : (extractDevisInfo exGoodC8).total_ttc = some 3500 := by decide
    have h2 : (extractDevisInfo exGoodC8).surface_m2 = some 50 := by decide
    refine ⟨h1, h2, ?_⟩
    have := hmain exGoodC8 3500 50 h1 (by norm_num) h2
    rw [this]
    have hmax : max (1 : ℚ) 50 = 50 := by decide
    have hdiv : (3500 : ℚ) / max 1 50 = 70 := by rw [hmax]; norm_num
    rw [hdiv]
    have h70 : (70 : ℚ) * 100 = 7000 := by norm_num
    have hr : rhe ((70 : ℚ) * 100) = 7000 := by rw [h70]; decide
    simp only [round2, hr]
    norm_num

/-- Witness for `price_per_sqm_amended`: its main clause applied to the
concrete document `exGoodC8`. -/
theorem price_per_sqm_amended_witness :
    computeEurM2 (extractDevisInfo exGoodC8) =
      some (round2 (3500 / max 1 50)) :=
  price_per_sqm_amended.1 exGoodC8 3500 50 (by decide) (by norm_num) (by decide)

/-- C9 counterexample: at the `difflib` ratio `sim = 1/29` (e.g. two
29-character names sharing one character: `2·1/(29+29) = 1/29`) with no
SIRET/address/NAF signal, the code's weighted score is
`round(sim·15) = round(0.517…) = 1`, while the claim's formula
`round(nameSimilarityPct·0.15) = round(round(3.45)·0.15) = round(0.45) = 0`
differs: double rounding through the integer percentage loses a point. -/
theorem identification_pct_double_rounding_counterexample :
    identificationPctOf false false false false (1 / 29) = 1 ∧
    specWeightedIdentificationPct false false false (1 / 29) = 0 ∧
    identificationPctOf false false false false (1 / 29) ≠
      specWeightedIdentificationPct false false false (1 / 29) := by
  have ha : (1 / 29 : ℚ) * 15 = mkRat 15 29 := by
    rw [Rat.mkRat_eq_div]; norm_num
  have hb : (1 / 29 : ℚ) * 100 = mkRat 100 29 := by
    rw [Rat.mkRat_eq_div]; norm_num
  have hra : rhe ((1 / 29 : ℚ) * 15) = 1 := by rw [ha]; decide
  have hrb : rhe ((1 / 29 : ℚ) * 100) = 3 := by rw [hb]; decide
  have hc : ((nameSimilarityPctOf (1 / 29) : ℤ) : ℚ) * (15 / 100) = mkRat 9 20 := by
    simp only [nameSimilarityPctOf, hrb]
    rw [Rat.mkRat_eq_div]
    norm_num
  have hrc : rhe (mkRat 9 20) = 0 := by decide
  have h1 : identificationPctOf false false false false (1 / 29) = 1 := by
    simp only [identificationPctOf, Bool.false_and, Bool.false_eq_true,
      if_false, hra]
    decide
  have h2 : specWeightedIdentificationPct false false false (1 / 29) = 0 := by
    simp only [specWeightedIdentificationPct, hc, hrc, Bool.false_eq_true,
      if_false]
    decide
  exact ⟨h1, h2, by rw [h1, h2]; decide⟩

/-- C9 amended: the code's weighted identification score is
`clamp(0,100, siretMatch?60:0 + round(sim×15) + addressMatch?15:0 +
nafCoherent?10:0)` in terms of the raw similarity ratio `sim` (which can
differ by one point from the spec's `round(nameSimilarityPct×0.15)`
because of double rounding), and in either mode the score always lies in
`[0, 100]`. -/
theorem identification_pct_amended :
    (∀ (sm am nc : Bool) (sim : ℚ),
      identificationPctOf false sm am nc sim =
        clampScore ((if sm then 60 else 0) + rhe (sim * 15) +
          (if am then 15 else 0) + (if nc then 10 else 0))) ∧
    (∀ (stm sm am nc : Bool) (sim : ℚ),
      0 ≤ identificationPctOf stm sm am nc sim ∧
      identificationPctOf stm sm am nc sim ≤ 100) := by
  constructor
  · intro sm am nc sim
    simp [identificationPctOf]
  · intro stm sm am nc sim
    by_cases hcond : (stm && sm) = true
    · simp only [identificationPctOf, hcond, if_true]
      norm_num
    · simp only [identificationPctOf, hcond, if_false]
      exact ⟨le_max_left 0 _, max_le (by norm_num) (min_le_left 100 _)⟩

theorem char_toNat_ofNat {n : Nat} (h : n.isValidChar) :
    (Char.ofNat n).toNat = n := by
  simp [Char.ofNat, h, Char.ofNatAux, Char.toNat]
  rfl

theorem pyLower_toNat (c : Char) :
    (pyLower c).toNat = if 65 ≤ c.toNat ∧ c.toNat ≤ 90 then c.toNat + 32
      else c.toNat := by
  by_cases h : 65 ≤ c.toNat ∧ c.toNat ≤ 90
  · have hv : (c.toNat + 32).isValidChar := by
      left
      omega
    simp [pyLower, h, char_toNat_ofNat hv]
  · simp [pyLower, h]

theorem pyLower_fix_of_low {c : Char} (h : ¬(65 ≤ c.toNat ∧ c.toNat ≤ 90)) :
    pyLower c = c := by
  simp [pyLower, h]

theorem pyLower_idem (c : Char) : pyLower (pyLower c) = pyLower c := by
  by_cases h : 65 ≤ c.toNat ∧ c.toNat ≤ 90
  · apply pyLower_fix_of_low
    rw [pyLower_toNat, if_pos h]
    omega
  · rw [pyLower_fix_of_low h, pyLower_fix_of_low h]

theorem isWordChar_pyLower {c : Char} (h : isWordChar c = true) :
    isWordChar (pyLower c) = true := by
  simp only [isWordChar, Bool.or_eq_true, Bool.and_eq_true, decide_eq_true_eq,
    beq_iff_eq] at h ⊢
  rw [pyLower_toNat]
  by_cases hu : 65 ≤ c.toNat ∧ c.toNat ≤ 90
  · rw [if_pos hu]
    omega
  · rw [if_neg hu]
    exact h

theorem isSpaceChar_toNat {c : Char} (h : isSpaceChar c = true) :
    c.toNat < 65 := by
  simp only [isSpaceChar, Bool.or_eq_true, beq_iff_eq] at h
  rcases h with ((((h | h) | h) | h) | h) | h <;> subst h <;> decide

theorem pyLower_fix_of_space {c : Char} (h : isSpaceChar c = true) :
    pyLower c = c := by
  apply pyLower_fix_of_low
  have := isSpaceChar_toNat h
  omega

theorem isSpaceChar_pyLower (c : Char) :
    isSpaceChar (pyLower c) = isSpaceChar c := by
  by_cases h : 65 ≤ c.toNat ∧ c.toNat ≤ 90
  · have h1 : isSpaceChar c = false := by
      by_contra hcon
      simp only [Bool.not_eq_false] at hcon
      have := isSpaceChar_toNat hcon
      omega
    have h2 : isSpaceChar (pyLower c) = false := by
      by_contra hcon
      simp only [Bool.not_eq_false] at hcon
      have := isSpaceChar_toNat hcon
      rw [pyLower_toNat, if_pos h] at this
      omega
    rw [h1, h2]
  · rw [pyLower_fix_of_low h]

theorem subChar_fix {c : Char} (h : (isWordChar c || isSpaceChar c) = true) :
    subChar c = c := by
  simp [subChar, h]

theorem subChar_class (c : Char) :
    (isWordChar (subChar c) || isSpaceChar (subChar c)) = true := by
  by_cases h : (isWordChar c || isSpaceChar c) = true
  · rw [subChar_fix h]
    exact h
  · have : subChar c = ' ' := by simp [subChar, h]
    rw [this]
    decide

theorem normChar_stable (x : Char) :
    subChar (pyLower (subChar x)) = pyLower (subChar x) ∧
    pyLower (pyLower (subChar x)) = pyLower (subChar x) := by
  have hy := subChar_class x
  rcases Bool.or_eq_true_iff.mp hy with hw | hs
  · exact ⟨subChar_fix (Bool.or_eq_true_iff.mpr (Or.inl (isWordChar_pyLower hw))),
      pyLower_idem _⟩
  · rw [pyLower_fix_of_space hs]
    exact ⟨subChar_fix (Bool.or_eq_true_iff.mpr (Or.inr hs)), pyLower_fix_of_space hs⟩

theorem pyWords_nil : pyWords [] = [] := by simp [pyWords]

theorem pyWords_cons_space {c : Char} {cs : List Char} (h : isSpaceChar c = true) :
    pyWords (c :: cs) = pyWords cs := by
  simp [pyWords, h]

theorem pyWords_cons_nonspace {c : Char} {cs : List Char} (h : isSpaceChar c = false) :
    pyWords (c :: cs) =
      (c :: cs.takeWhile (fun x => !isSpaceChar x)) ::
        pyWords (cs.dropWhile (fun x => !isSpaceChar x)) := by
  simp [pyWords, h]

theorem pyWords_token_chars :
    ∀ (l : List Char) (tk : List Char), tk ∈ pyWords l →
      tk ≠ [] ∧ ∀ c ∈ tk, c ∈ l ∧ isSpaceChar c = false := by
  intro l
  induction l using pyWords.induct with
  | case1 => intro tk h; simp [pyWords] at h
  | case2 c cs hsp ih =>
    intro tk h
    rw [pyWords_cons_space hsp] at h
    obtain ⟨hne, hch⟩ := ih tk h
    refine ⟨hne, fun x hx => ?_⟩
    obtain ⟨hmem, hs⟩ := hch x hx
    exact ⟨List.mem_cons_of_mem c hmem, hs⟩
  | case3 c cs hnsp ih =>
    intro tk h
    have hnsp' : isSpaceChar c = false := by
      revert hnsp
      cases isSpaceChar c <;> simp
    rw [pyWords_cons_nonspace hnsp'] at h
    rcases List.mem_cons.mp h with rfl | hrest
    · refine ⟨by simp, fun x hx => ?_⟩
      rcases List.mem_cons.mp hx with rfl | htw
      · exact ⟨List.mem_cons_self _ _, hnsp'⟩
      · have hq : (!isSpaceChar x) = true :=
          @List.mem_takeWhile_imp Char (fun x => !isSpaceChar x) cs x htw
        have hmem : x ∈ cs := (List.takeWhile_sublist _).subset htw
        refine ⟨List.mem_cons_of_mem c hmem, ?_⟩
        simpa using hq
    · obtain ⟨hne, hch⟩ := ih tk hrest
      refine ⟨hne, fun x hx => ?_⟩
      obtain ⟨hmem, hs⟩ := hch x hx
      exact ⟨List.mem_cons_of_mem c ((List.dropWhile_sublist _).subset hmem), hs⟩

theorem takeWhile_append_all {p : Char → Bool} :
    ∀ (xs : List Char) (y : Char) (ys : List Char),
      (∀ x ∈ xs, p x = true) → p y = false →
      (xs ++ y :: ys).takeWhile p = xs := by
  intro xs
  induction xs with
  | nil => intro y ys _ hy; simp [List.takeWhile, hy]
  | cons a rest ih =>
    intro y ys hall hy
    have ha : p a = true := hall a (List.mem_cons_self _ _)
    simp only [List.cons_append, List.takeWhile_cons, ha, if_true]
    rw [ih y ys (fun x hx => hall x (List.mem_cons_of_mem a hx)) hy]

theorem dropWhile_append_all {p : Char → Bool} :
    ∀ (xs : List Char) (y : Char) (ys : List Char),
      (∀ x ∈ xs, p x = true) → p y = false →
      (xs ++ y :: ys).dropWhile p = y :: ys := by
  intro xs
  induction xs with
  | nil => intro y ys _ hy; simp [List.dropWhile, hy]
  | cons a rest ih =>
    intro y ys hall hy
    have ha : p a = true := hall a (List.mem_cons_self _ _)
    simp only [List.cons_append, List.dropWhile_cons, ha, if_true]
    exact ih y ys (fun x hx => hall x (List.mem_cons_of_mem a hx)) hy

theorem pyWords_joinSp :
    ∀ toks : List (List Char),
      (∀ tk ∈ toks, tk ≠ [] ∧ ∀ c ∈ tk, isSpaceChar c = false) →
      pyWords (joinSp toks) = toks := by
  intro toks
  induction toks with
  | nil => intro _; exact pyWords_nil
  | cons t rest ih =>
    intro h
    obtain ⟨hne, hch⟩ := h t (List.mem_cons_self _ _)
    obtain ⟨c, cs, rfl⟩ := List.exists_cons_of_ne_nil hne
    have hc : isSpaceChar c = false := (hch c (List.mem_cons_self _ _))
    have hcs : ∀ x ∈ cs, (!isSpaceChar x) = true := by
      intro x hx
      simp [hch x (List.mem_cons_of_mem c hx)]
    cases rest with
    | nil =>
      show pyWords (c :: cs) = [c :: cs]
      rw [pyWords_cons_nonspace hc]
      rw [List.takeWhile_eq_self_iff.mpr hcs, List.dropWhile_eq_nil_iff.mpr hcs]
      rw [pyWords_nil]
    | cons u rest2 =>
      show pyWords ((c :: cs) ++ ' ' :: joinSp (u :: rest2)) = (c :: cs) :: u :: rest2
      have hsp : (!isSpaceChar ' ') = false := by decide
      rw [show ((c :: cs) ++ ' ' :: joinSp (u :: rest2)) =
          c :: (cs ++ ' ' :: joinSp (u :: rest2)) from by simp]
      rw [pyWords_cons_nonspace hc]
      rw [takeWhile_append_all cs ' ' _ hcs hsp, dropWhile_append_all cs ' ' _ hcs hsp]
      rw [pyWords_cons_space (by decide)]
      rw [ih (fun tk htk => h tk (List.mem_cons_of_mem _ htk))]

theorem mem_joinSp :
    ∀ (ts : List (List Char)) (c : Char), c ∈ joinSp ts →
      c = ' ' ∨ ∃ tk ∈ ts, c ∈ tk := by
  intro ts
  induction ts with
  | nil => intro c h; simp [joinSp] at h
  | cons t rest ih =>
    intro c h
    cases rest with
    | nil =>
      right
      exact ⟨t, List.mem_cons_self _ _, h⟩
    | cons u rest2 =>
      rcases List.mem_append.mp h with hm | hm
      · exact Or.inr ⟨t, List.mem_cons_self _ _, hm⟩
      · rcases List.mem_cons.mp hm with rfl | hm2
        · exact Or.inl rfl
        · rcases ih c hm2 with hsp | ⟨tk, htk, hc⟩
          · exact Or.inl hsp
          · exact Or.inr ⟨tk, List.mem_cons_of_mem t htk, hc⟩

theorem map_eq_self_of_fix {α : Type} (f : α → α) :
    ∀ l : List α, (∀ c ∈ l, f c = c) → l.map f = l := by
  intro l
  induction l with
  | nil => intro _; rfl
  | cons a rest ih =>
    intro h
    simp only [List.map_cons, h a (List.mem_cons_self _ _),
      ih (fun c hc => h c (List.mem_cons_of_mem a hc))]

theorem norm_char_stable (s : List Char) (c : Char) (hc : c ∈ normStr s) :
    subChar c = c ∧ pyLower c = c := by
  by_cases hs : s = []
  · rw [hs] at hc
    simp [normStr] at hc
  · rw [normStr, if_neg hs] at hc
    rcases mem_joinSp _ _ hc with rfl | ⟨tk, htk, hcm⟩
    · exact ⟨by decide, by decide⟩
    · have htk2 : tk ∈ pyWords ((s.map subChar).map pyLower) :=
        List.mem_of_mem_filter htk
      have hcl := (pyWords_token_chars _ tk htk2).2 c hcm
      obtain ⟨hcl, _⟩ := hcl
      simp only [List.mem_map] at hcl
      obtain ⟨y, ⟨x, _, rfl⟩, rfl⟩ := hcl
      exact normChar_stable x

/-- C10: the text normalizer is idempotent — its output is lowercase,
contains only word characters joined by single spaces, with legal-entity
suffixes already removed, so re-normalizing changes nothing (the empty
string covering the null/empty input case). -/
theorem norm_idempotent_claim : ∀ s : List Char, normStr (normStr s) = normStr s := by
  intro s
  by_cases hs : s = []
  · rw [hs]
    rfl
  · by_cases hns : normStr s = []
    · rw [hns]
      rfl
    · have hmap1 : (normStr s).map subChar = normStr s :=
        map_eq_self_of_fix _ _ (fun c hc => (norm_char_stable s c hc).1)
      have hmap2 : (normStr s).map pyLower = normStr s :=
        map_eq_self_of_fix _ _ (fun c hc => (norm_char_stable s c hc).2)
      conv_lhs => rw [normStr, if_neg hns]
      rw [hmap1, hmap2]
      have hA : ∀ tk ∈ (pyWords ((s.map subChar).map pyLower)).filter
          (fun tk => !tk.isEmpty && !legalSuffix.contains tk),
          tk ≠ [] ∧ ∀ c ∈ tk, isSpaceChar c = false := by
        intro tk htk
        have htk2 := List.mem_of_mem_filter htk
        obtain ⟨hne, hch⟩ := pyWords_token_chars _ tk htk2
        exact ⟨hne, fun c hc => (hch c hc).2⟩
      have hB : normStr s = joinSp ((pyWords ((s.map subChar).map pyLower)).filter
          (fun tk => !tk.isEmpty && !legalSuffix.contains tk)) := by
        rw [normStr, if_neg hs]
      rw [hB, pyWords_joinSp _ hA]
      rw [List.filter_eq_self.mpr (fun tk htk => (List.mem_filter.mp htk).2)]
